import Mathlib

/-!
Verification of the fastenum enumeration metaclass (QratorLabs/fastenum).

The development shallowly embeds `FastEnum.__new__` and the sealed-type API
from `src/fastenum_meta/fastenum.py` (the `src/fastenum/fastenum.py` variant
computes attribute lists, auto values and alias collapsing identically).

Modelling conventions:
- A class body is a `Decl`: the class name plus the ordered list of bindings
  (`NAME = value`, `NAME: "Ann"`, `NAME: "Ann" = value`) as they appear in
  source order.  The Python namespace dict and the `__annotations__` dict are
  derived from it in insertion order, as CPython builds them.
- Python dicts are insertion-ordered association lists (`alookup` / `aset`).
- Member identity is the construction index (`Member.id`); two names denote
  the identical object exactly when they map to the same index.
- Fallible paths (`KeyError`, `IndexError`, the `TypeError` raised by
  `__restrict_modification`) are `Except String`.
- The member constructor is modelled as the default/resolved `__init__`
  behaviour: it stores the first tuple element as `value`, the remaining
  tuple elements as `args`, and the declared name as `name`.
- Dunder bookkeeping (`__slots__`, `__hash__`, `__eq__`, rendering) is out of
  scope of the claims and not part of the class-dict model, except for the
  late-init hook key, whose presence and removal the claims mention.
-/

namespace FastEnumModel

/-- Scalar Python runtime values, as far as the enum machinery inspects
them.  `func` is an opaque function object (such as the late-init hook);
`ref i` is a reference to the enum member with construction index `i`. -/
inductive PyVal where
  | int : Int → PyVal
  | str : String → PyVal
  | pybool : Bool → PyVal
  | func : PyVal
  | ref : Nat → PyVal
  deriving DecidableEq, Repr

/-- A value bound in a class body: either a scalar or a tuple
`(value, *ctor_args)` of scalars — the metaclass only ever builds and
inspects one level of tuple structure (`val[0]` and the tail). -/
inductive NsVal where
  | val : PyVal → NsVal
  | tup : List PyVal → NsVal
  deriving DecidableEq, Repr

/-- Python truthiness, as used by `bool(namespace.get("_ZERO_VALUED"))`. -/
def truthy : NsVal → Bool
  | .val (.int n) => n != 0
  | .val (.str s) => s != ""
  | .val (.pybool b) => b
  | .val .func => true
  | .val (.ref _) => true
  | .tup vs => !vs.isEmpty

/-- A single quote character, used when rendering strings. -/
def sq : String := String.singleton (Char.ofNat 39)

/-- Python `str` of a scalar value (function and member objects are rendered
approximately; they never occur in the error messages the claims are
about). -/
def pvStr : PyVal → String
  | .int n => toString n
  | .str s => s
  | .pybool b => if b then "True" else "False"
  | .func => "<function>"
  | .ref i => "<member " ++ toString i ++ ">"

/-- Lookup in an insertion-ordered association list (Python dict read). -/
def alookup {α β : Type} [DecidableEq α] : List (α × β) → α → Option β
  | [], _ => none
  | p :: ps, k => if p.1 = k then some p.2 else alookup ps k

/-- Write to an insertion-ordered association list (Python dict write):
an existing key keeps its position and gets the new value, a fresh key is
appended. -/
def aset {α β : Type} [DecidableEq α] (l : List (α × β)) (k : α) (v : β) :
    List (α × β) :=
  if (alookup l k).isSome then
    l.map (fun p => if p.1 = k then (k, v) else p)
  else
    l ++ [(k, v)]

/-- Delete a key from an association list (Python `del` / `delattr`). -/
def aremove {α β : Type} [DecidableEq α] (l : List (α × β)) (k : α) :
    List (α × β) :=
  l.filter (fun p => decide (p.1 ≠ k))

/-- Python `str.isupper` restricted to ASCII identifiers: at least one
cased character and no lowercase one. -/
def pyIsUpper (s : String) : Bool :=
  s.data.any (fun c => c.isAlpha) && s.data.all (fun c => !c.isLower)

/-- Python `k.startswith("_")`: the first character is an underscore. -/
def startsUnderscore (s : String) : Bool :=
  match s.data with
  | [] => false
  | c :: _ => c = '_'

/-- The eligibility filter `not k.startswith("_") and k.isupper()` shared by
both comprehensions building `attributes` in `FastEnum.__new__`. -/
def isPublicUpper (s : String) : Bool :=
  !startsUnderscore s && pyIsUpper s

/-- One binding of a class body, in source form. -/
inductive Binding where
  | assigned : String → NsVal → Binding
  | annotated : String → String → Binding
  | assignedAnn : String → String → NsVal → Binding
  deriving DecidableEq, Repr

/-- A class declaration handed to the metaclass: its name and the bindings of
the class body in source order. -/
structure Decl where
  name : String
  bindings : List Binding
  deriving DecidableEq, Repr

/-- The class-body namespace dict: assigned bindings in insertion order. -/
def nsOf (bs : List Binding) : List (String × NsVal) :=
  bs.foldl
    (fun acc b =>
      match b with
      | .assigned n v => aset acc n v
      | .assignedAnn n _ v => aset acc n v
      | .annotated _ _ => acc)
    []

/-- The `__annotations__` dict: annotated bindings in insertion order. -/
def annsOf (bs : List Binding) : List (String × String) :=
  bs.foldl
    (fun acc b =>
      match b with
      | .annotated n a => aset acc n a
      | .assignedAnn n a _ => aset acc n a
      | .assigned _ _ => acc)
    []

/-- The `attributes` list of `FastEnum.__new__`: public uppercase namespace
keys first, then public uppercase annotated names whose annotation equals the
class name. -/
def attributesOf (d : Decl) : List String :=
  (nsOf d.bindings).filterMap
      (fun p => if isPublicUpper p.1 then some p.1 else none)
  ++ (annsOf d.bindings).filterMap
      (fun p => if isPublicUpper p.1 && p.2 == d.name then some p.1 else none)

/-- The `_ZERO_VALUED` switch: `bool(namespace.get("_ZERO_VALUED"))`. -/
def zeroValued (d : Decl) : Bool :=
  truthy ((alookup (nsOf d.bindings) "_ZERO_VALUED").getD (.val (.pybool false)))

/-- Initial value of the auto-numbering counter:
`light_val = 0 + int(not bool(namespace.get("_ZERO_VALUED")))`. -/
def startVal (d : Decl) : Int :=
  if zeroValued d then 0 else 1

/-- The auto-valuing loop of `FastEnum.__new__`: attributes already present
in the namespace are skipped (the counter does not move), absent ones receive
the counter value and the counter advances. -/
def autoFill : List String → List (String × NsVal) → Int → List (String × NsVal)
  | [], ns, _ => ns
  | a :: rest, ns, lv =>
    if (alookup ns a).isSome then autoFill rest ns lv
    else autoFill rest (aset ns a (.val (.int lv))) (lv + 1)

/-- The namespace after the auto-valuing loop ran. -/
def finalNs (d : Decl) : List (String × NsVal) :=
  autoFill (attributesOf d) (nsOf d.bindings) (startVal d)

/-- Tuple normalisation: `if not isinstance(val, tuple): val = (val,)`. -/
def toTuple : NsVal → List PyVal
  | .tup vs => vs
  | .val v => [v]

/-- The underlying value an attribute name resolves to: `val[0]` of its
normalised namespace entry. -/
def resolve (ns : List (String × NsVal)) (n : String) : Option PyVal :=
  (alookup ns n).bind (fun v => (toTuple v).head?)

/-- One enum member singleton.  `id` is the construction index and stands for
object identity; `args` are the extra constructor arguments (tuple tail);
`extra` are fields assigned after construction (by a late-init hook). -/
structure Member where
  id : Nat
  name : String
  value : PyVal
  args : List PyVal
  extra : List (String × PyVal)
  deriving DecidableEq, Repr

/-- An entry of the sealed class dict: either a plain namespace value or a
member singleton (installed by `setattr(typ, instance_name, inst)`). -/
inductive ClassAttr where
  | plain : NsVal → ClassAttr
  | member : Nat → ClassAttr
  deriving DecidableEq, Repr

/-- State of the member-construction loop. -/
structure BuildSt where
  members : List Member
  valueIndex : List (PyVal × Nat)
  nameIndex : List (String × Nat)
  classDict : List (String × ClassAttr)
  deriving DecidableEq, Repr

/-- One iteration of the member-construction loop of `FastEnum.__new__`:
read the namespace entry, normalise it to a tuple, and either bind the name
to the already-constructed member of that value (alias) or construct a new
member and register it in `_value_to_instance_map`. -/
def buildStep (ns : List (String × NsVal)) (st : BuildSt) (s : String) :
    Except String BuildSt :=
  match alookup ns s with
  | none => .error ("KeyError: " ++ s)
  | some raw =>
    match toTuple raw with
    | [] => .error "IndexError: tuple index out of range"
    | v0 :: rest =>
      match alookup st.valueIndex v0 with
      | some i =>
          .ok { st with
                  nameIndex := aset st.nameIndex s i,
                  classDict := aset st.classDict s (.member i) }
      | none =>
          .ok { members := st.members ++ [⟨st.members.length, s, v0, rest, []⟩],
                valueIndex := st.valueIndex ++ [(v0, st.members.length)],
                nameIndex := aset st.nameIndex s st.members.length,
                classDict := aset st.classDict s (.member st.members.length) }

/-- The member-construction loop over the attribute list. -/
def buildFold (ns : List (String × NsVal)) :
    List String → BuildSt → Except String BuildSt
  | [], st => .ok st
  | a :: rest, st =>
    match buildStep ns st a with
    | .error e => .error e
    | .ok st1 => buildFold ns rest st1

/-- A late-init hook body: it receives `_value_to_instance_map` (so it can
call the class, i.e. retrieve members by value), the current member list, and
the index of the member being initialised, and returns the updated member
list (it may read and assign fields of the member and of its siblings). -/
def HookFn : Type :=
  List (PyVal × Nat) → List Member → Nat → List Member

/-- The hook loop: `for instance in typ._value_to_instance_map.values():
fun(instance)` — one invocation per constructed member, in construction
order.  The second component records the indices hooked, in order. -/
def runHook (hk : HookFn) (vidx : List (PyVal × Nat)) (ms : List Member) :
    List Member × List Nat :=
  (List.range ms.length).foldl
    (fun acc i => (hk vidx acc.1 i, acc.2 ++ [i])) (ms, [])

/-- The name-mangled key of the late-init hook, `_ClassName__init_late`. -/
def hookKey (d : Decl) : String :=
  "_" ++ d.name ++ "__init_late"

/-- The message of the `TypeError` raised by
`FastEnum.__restrict_modification`. -/
def restrictMsg : String :=
  "Enum-like classes strictly prohibit changing any attribute/property after they are once set"

/-- The sealed (or still open) enumeration type produced by the metaclass.
`finalized` models `hasattr(cls, "_finalized")`, which is inherited, so an
open type records whether a base is sealed.  `hookLog` records which member
indices the late-init hook was invoked on, in order. -/
structure EnumType where
  typeName : String
  members : List Member
  valueIndex : List (PyVal × Nat)
  nameIndex : List (String × Nat)
  classDict : List (String × ClassAttr)
  finalized : Bool
  hookLog : List Nat
  deriving DecidableEq, Repr

/-- Whether the declaration itself binds `_finalized` (contributes to
`hasattr(cls, "_finalized")` alongside inheritance from the bases). -/
def ownFin (d : Decl) : Bool :=
  (alookup (nsOf d.bindings) "_finalized").isSome

/-- The class dict as it stands right after `type.__new__`: the namespace
(auto values included) with every entry still a plain value. -/
def dict0 (d : Decl) : List (String × ClassAttr) :=
  (finalNs d).map (fun p => (p.1, ClassAttr.plain p.2))

/-- `FastEnum.__new__`.  `baseFinalized` is whether some base class already
carries `_finalized` (Python `hasattr` walks the bases); `hk` is the body of
the late-init hook, consulted only when the mangled hook key is bound to a
function in the class body.  A declaration with no member attributes is
returned open; otherwise the first `setattr` on the new type
(`typ._value_to_instance_map = {}`) hits `FastEnum.__setattr__`, which
raises when `_finalized` is visible — this is the extension gate.  After the
member loop the hook runs and the hook key is deleted, and the type is
sealed with `_finalized = True`. -/
def mkEnum (baseFinalized : Bool) (hk : HookFn) (d : Decl) :
    Except String EnumType :=
  let ns0 := nsOf d.bindings
  let attrs := attributesOf d
  let ns := finalNs d
  let hasFin := baseFinalized || ownFin d
  if attrs.isEmpty then
    .ok ⟨d.name, [], [], [], dict0 d, hasFin, []⟩
  else if hasFin then
    .error restrictMsg
  else
    match buildFold ns attrs ⟨[], [], [], dict0 d⟩ with
    | .error e => .error e
    | .ok st =>
      match alookup ns0 (hookKey d) with
      | none =>
          .ok ⟨d.name, st.members, st.valueIndex, st.nameIndex,
               st.classDict, true, []⟩
      | some (.val .func) =>
          let r := runHook hk st.valueIndex st.members
          .ok ⟨d.name, r.1, st.valueIndex, st.nameIndex,
               aremove st.classDict (hookKey d), true, r.2⟩
      | some _ =>
          .error ("TypeError: " ++ hookKey d ++ " object is not callable")

/-- `FastEnum.get` on a sealed type (its `_value_to_instance_map` is a dict):
return the member registered for the value, or raise `ValueError` naming the
value. -/
def get (t : EnumType) (v : PyVal) : Except String Nat :=
  match alookup t.valueIndex v with
  | some i => .ok i
  | none =>
      .error ("Value " ++ pvStr v ++ " is not found in this enum type declaration")

/-- `FastEnum.__getitem__`: `getattr(cls, item)` over the class dict;
an absent name raises `AttributeError` naming the type and the name. -/
def getItem (t : EnumType) (n : String) : Except String ClassAttr :=
  match alookup t.classDict n with
  | some a => .ok a
  | none =>
      .error ("type object " ++ sq ++ t.typeName ++ sq ++ " has no attribute "
              ++ sq ++ n ++ sq)

/-- `FastEnum.has_value`. -/
def hasValue (t : EnumType) (v : PyVal) : Bool :=
  (alookup t.valueIndex v).isSome

/-- `FastEnum.__setattr__` on the type: raises once `_finalized` is visible,
otherwise writes the class dict. -/
def typeSetattr (t : EnumType) (k : String) (v : ClassAttr) :
    Except String EnumType :=
  if t.finalized then .error restrictMsg
  else .ok { t with classDict := aset t.classDict k v }

/-- `FastEnum.__delattr__` on the type. -/
def typeDelattr (t : EnumType) (k : String) : Except String EnumType :=
  if t.finalized then .error restrictMsg
  else .ok { t with classDict := aremove t.classDict k }

/-- Attribute assignment on a member instance: after sealing the class
attribute `__setattr__` is `__restrict_modification`, which raises
unconditionally; before sealing it is ordinary slot assignment. -/
def memberSetattr (t : EnumType) (m : Member) (k : String) (v : PyVal) :
    Except String Member :=
  if t.finalized then .error restrictMsg
  else .ok { m with extra := aset m.extra k v }

/-- Attribute deletion on a member instance, same dispatch as assignment. -/
def memberDelattr (t : EnumType) (m : Member) (k : String) :
    Except String Member :=
  if t.finalized then .error restrictMsg
  else .ok { m with extra := aremove m.extra k }

/-- `FastEnum.__copy`: `return cls`. -/
def copyMember (m : Member) : Member := m

/-- `FastEnum.__deepcopy`: `return cls`. -/
def deepcopyMember (m : Member) : Member := m

/-- `FastEnum.__reduce`: a member pickles to the pair `(type, value)`
handed to the reconstructor `typ.get`. -/
def reduceMember (t : EnumType) (m : Member) : String × PyVal :=
  (t.typeName, m.value)

/-- Deserialisation applies the reconstructor `typ.get` to the pickled
value. -/
def deserialize (t : EnumType) (v : PyVal) : Except String Nat :=
  get t v

/-- A hook that performs no mutation. -/
def trivialHook : HookFn := fun _ ms _ => ms

/-- The identity-relevant projection of a member: construction index, name
and value. -/
def projNV (m : Member) : Nat × String × PyVal :=
  (m.id, m.name, m.value)

/-- A hook is tame when it only reads members and assigns extra fields, never
rebinding a member identity, name or value (this is what the late-init
mechanism is for; a hook that rewrote `value` would desynchronise
`_value_to_instance_map` in the Python original as well). -/
def TameHook (hk : HookFn) : Prop :=
  ∀ vidx ms i, (hk vidx ms i).map projNV = ms.map projNV

/-- Characterisation of the member-construction loop: walking the names in
order, each name whose resolved value is new claims a member; names whose
value was already seen are aliases and claim nothing. -/
def firstClaims (ns : List (String × NsVal)) :
    List String → List PyVal → List (String × PyVal)
  | [], _ => []
  | a :: rest, seen =>
    match resolve ns a with
    | none => []
    | some v =>
      if v ∈ seen then firstClaims ns rest seen
      else (a, v) :: firstClaims ns rest (seen ++ [v])

/-- Invariant of the member-construction loop. -/
structure Good (ns : List (String × NsVal)) (st : BuildSt) : Prop where
  vidx : st.valueIndex = st.members.map (fun m => (m.value, m.id))
  ids : st.members.map Member.id = List.range st.members.length
  nodup : (st.members.map Member.value).Nodup
  names : ∀ n i, alookup st.nameIndex n = some i →
    ∃ m, st.members[i]? = some m ∧ resolve ns n = some m.value
  dict : ∀ n i, alookup st.nameIndex n = some i →
    alookup st.classDict n = some (.member i)
  dictPlain : ∀ n, alookup st.nameIndex n = none →
    alookup st.classDict n = (alookup ns n).map ClassAttr.plain
  pubkeys : ∀ n, (alookup st.nameIndex n).isSome = true → isPublicUpper n = true

/-- Keep the first occurrence of every element. -/
def firstOccAux : List String → List String → List String
  | [], _ => []
  | x :: xs, seen =>
    if x ∈ seen then firstOccAux xs seen else x :: firstOccAux xs (x :: seen)

/-- Keep the first occurrence of every element. -/
def firstOcc (l : List String) : List String :=
  firstOccAux l []

/-- The declared name of a binding. -/
def bindingName : Binding → String
  | .assigned n _ => n
  | .annotated n _ => n
  | .assignedAnn n _ _ => n

/-- Whether a binding declares an enum member of class `clsName`. -/
def bindingEligible (clsName : String) : Binding → Bool
  | .assigned n _ => isPublicUpper n
  | .annotated n a => isPublicUpper n && a == clsName
  | .assignedAnn n _ _ => isPublicUpper n

/-- Modelled from the spec (C4): the member names in the order they appear
in the source declaration. -/
def srcMemberNames (d : Decl) : List String :=
  firstOcc ((d.bindings.filter (bindingEligible d.name)).map bindingName)

/-- Modelled from the spec (C4): "iterating the type produces the distinct
members (aliases excluded) in exactly the order their names appeared in the
source declaration" — the distinct-value first claimants walked in source
order. -/
def specDeclaredOrder (d : Decl) : List String :=
  (firstClaims (finalNs d) (srcMemberNames d) []).map Prod.fst

/-- Modelled from the spec (C2): an auto-valuing loop in which "the counter
increments by 1 for every value assigned in source order, whether that value
was explicit or automatic". -/
def specCounterFill :
    List String → List (String × NsVal) → Int → List (String × NsVal)
  | [], ns, _ => ns
  | a :: rest, ns, lv =>
    if (alookup ns a).isSome then specCounterFill rest ns (lv + 1)
    else specCounterFill rest (aset ns a (.val (.int lv))) (lv + 1)

/-- The late-init hook of the `HookedEnum` example:
`self.halved_value = self.__class__(self.value // 2)` — look up the member
whose value is the floor-halved own value and store a reference to it. -/
def hkHalved : HookFn := fun vidx ms i =>
  ms.map (fun m =>
    if m.id = i then
      match m.value with
      | .int v =>
        match alookup vidx (.int (Int.fdiv v 2)) with
        | some j => { m with extra := aset m.extra "halved_value" (.ref j) }
        | none => m
      | _ => m
    else m)

/-! ### Concrete declarations from the repository examples and tests -/

/-- The mixed declaration of the spec and of `examples.py`:
`_ZERO_VALUED = True; AUTO_ZERO: auto; ONE = 1; AUTO_ONE: auto; TWO = 2`. -/
def mixedSpecDecl : Decl :=
  ⟨"MixedEnum",
   [.assigned "_ZERO_VALUED" (.val (.pybool true)),
    .annotated "AUTO_ZERO" "MixedEnum",
    .assignedAnn "ONE" "MixedEnum" (.val (.int 1)),
    .annotated "AUTO_ONE" "MixedEnum",
    .assignedAnn "TWO" "MixedEnum" (.val (.int 2))]⟩

/-- `StdEnum` of the test-suite: `ONE = 1, TWO = 2, THREE = 3,
ALIAS_THREE = 3`. -/
def stdDecl : Decl :=
  ⟨"StdEnum",
   [.assigned "ONE" (.val (.int 1)), .assigned "TWO" (.val (.int 2)),
    .assigned "THREE" (.val (.int 3)), .assigned "ALIAS_THREE" (.val (.int 3))]⟩

/-- `LightEnum` of `examples.py`: three auto members, one-based. -/
def lightDecl : Decl :=
  ⟨"LightEnum",
   [.annotated "ONE" "LightEnum", .annotated "TWO" "LightEnum",
    .annotated "THREE" "LightEnum"]⟩

/-- `LightEnumZero` of the test-suite: zero-based auto members. -/
def zlightDecl : Decl :=
  ⟨"LightEnumZero",
   [.assigned "_ZERO_VALUED" (.val (.pybool true)),
    .annotated "ZERO" "LightEnumZero", .annotated "ONE" "LightEnumZero",
    .annotated "TWO" "LightEnumZero"]⟩

/-- `HookedEnum` of `examples.py` and the test-suite: values 0..3 and the
halving late-init hook (the body key is written in its name-mangled form). -/
def hookedDecl : Decl :=
  ⟨"HookedEnum",
   [.annotated "halved_value" "HookedEnum",
    .assigned "_HookedEnum__init_late" (.val .func),
    .assignedAnn "ZERO" "HookedEnum" (.val (.int 0)),
    .assignedAnn "ONE" "HookedEnum" (.val (.int 1)),
    .assignedAnn "TWO" "HookedEnum" (.val (.int 2)),
    .assignedAnn "THREE" "HookedEnum" (.val (.int 3))]⟩

/-- A declaration with an explicit member followed by an auto member,
separating the two candidate counter semantics. -/
def cntDecl : Decl :=
  ⟨"CntEnum",
   [.assigned "EXPLICIT" (.val (.int 100)), .annotated "AUTO" "CntEnum"]⟩

/-- `ExtEnumBase` of `examples.py`: a member-free base declaration that only
supplies a field annotation (and, in Python, a constructor). -/
def extBaseDecl : Decl :=
  ⟨"ExtEnumBase", [.annotated "description" "Text"]⟩

/-- `ExtEnumOne` of `examples.py`: members with `(value, description)`
tuples, declared on top of the member-free base. -/
def extSubDecl : Decl :=
  ⟨"ExtEnumOne",
   [.assigned "ONE" (.tup [.int 1, .str "First positive integer"]),
    .assigned "TWO" (.tup [.int 2, .str "Second positive integer"])]⟩

/-- The forbidden extension attempt of the test-suite: subclass a sealed
enum and declare `FOUR = 4`. -/
def extendAttemptDecl : Decl :=
  ⟨"SubEnum", [.assigned "FOUR" (.val (.int 4))]⟩

/-- `RestrictEnum` of the test-suite. -/
def restrictDecl : Decl :=
  ⟨"RestrictEnum",
   [.assigned "ONE" (.val (.int 1)), .assigned "TWO" (.val (.int 2))]⟩

/-! ### Accessors used to state closed, computable properties -/

/-- Extract the type of a successful declaration (dummy open type on
error). -/
def getOk (r : Except String EnumType) : EnumType :=
  match r with
  | .ok t => t
  | .error _ => ⟨"", [], [], [], [], false, []⟩

/-- The member index a name is bound to. -/
def idOfName (r : Except String EnumType) (n : String) : Option Nat :=
  match r with
  | .ok t => alookup t.nameIndex n
  | .error _ => none

/-- The value of the member a name is bound to. -/
def valueOfName (r : Except String EnumType) (n : String) : Option PyVal :=
  match r with
  | .ok t => (alookup t.nameIndex n).bind (fun i => (t.members[i]?).map Member.value)
  | .error _ => none

/-- The names of the constructed members, in iteration order. -/
def memberNames (r : Except String EnumType) : Option (List String) :=
  match r with
  | .ok t => some (t.members.map Member.name)
  | .error _ => none

/-- The values of the constructed members, in iteration order. -/
def memberValues (r : Except String EnumType) : Option (List PyVal) :=
  match r with
  | .ok t => some (t.members.map Member.value)
  | .error _ => none

/-- The given extra field of every constructed member, in iteration order. -/
def memberExtras (r : Except String EnumType) (k : String) :
    Option (List (Option PyVal)) :=
  match r with
  | .ok t => some (t.members.map (fun m => alookup m.extra k))
  | .error _ => none

/-- The recorded hook invocations. -/
def hookLogOf (r : Except String EnumType) : Option (List Nat) :=
  match r with
  | .ok t => some t.hookLog
  | .error _ => none

/-! ### Association-list lemmas -/

theorem alookup_append {α β : Type} [DecidableEq α] (l1 l2 : List (α × β)) (k : α) :
    alookup (l1 ++ l2) k =
      match alookup l1 k with
      | some v => some v
      | none => alookup l2 k := by
  induction l1 with
  | nil => simp [alookup]
  | cons p ps ih => by_cases h : p.1 = k <;> simp [alookup, h, ih]

theorem alookup_mem {α β : Type} [DecidableEq α] {l : List (α × β)} {k : α} {v : β}
    (h : alookup l k = some v) : (k, v) ∈ l := by
  induction l with
  | nil => simp [alookup] at h
  | cons p ps ih =>
    obtain ⟨a, b⟩ := p
    by_cases hk : a = k
    · subst hk
      simp [alookup] at h
      simp [h]
    · simp [alookup, hk] at h
      exact List.mem_cons_of_mem _ (ih h)

theorem alookup_eq_none {α β : Type} [DecidableEq α] {l : List (α × β)} {k : α} :
    alookup l k = none ↔ k ∉ l.map Prod.fst := by
  induction l with
  | nil => simp [alookup]
  | cons p ps ih =>
    by_cases hk : p.1 = k
    · simp [alookup, hk]
    · simp [alookup, hk, ih, Ne.symm hk]

theorem alookup_isSome {α β : Type} [DecidableEq α] {l : List (α × β)} {k : α} :
    (alookup l k).isSome = true ↔ k ∈ l.map Prod.fst := by
  induction l with
  | nil => simp [alookup]
  | cons p ps ih =>
    by_cases h : p.1 = k
    · simp [alookup, h]
    · simp [alookup, h, ih, Ne.symm h]

theorem alookup_replace {α β : Type} [DecidableEq α] (l : List (α × β)) (k k' : α) (v : β) :
    alookup (l.map (fun p => if p.1 = k then (k, v) else p)) k' =
      if k' = k then (alookup l k).map (fun _ => v) else alookup l k' := by
  induction l with
  | nil => simp [alookup]
  | cons p ps ih =>
    by_cases hp : p.1 = k
    · by_cases hk : k' = k
      · subst hk
        simp [alookup, hp, ih]
      · have hp' : ¬ p.1 = k' := by rw [hp]; exact fun hc => hk hc.symm
        simp [alookup, hp, hp', hk, ih, Ne.symm hk]
    · by_cases hpk : p.1 = k'
      · have hk : ¬ k' = k := fun hc => hp (hpk.trans hc)
        simp [alookup, hp, hpk, hk]
      · simp [alookup, hp, hpk, ih]

theorem alookup_aset_self {α β : Type} [DecidableEq α] (l : List (α × β)) (k : α) (v : β) :
    alookup (aset l k v) k = some v := by
  by_cases h : (alookup l k).isSome = true
  · rw [aset, if_pos h, alookup_replace, if_pos rfl]
    cases hl : alookup l k with
    | none => rw [hl] at h; simp at h
    | some w => simp
  · rw [aset, if_neg h, alookup_append]
    have hnone : alookup l k = none := by
      cases hl : alookup l k with
      | none => rfl
      | some w => rw [hl] at h; simp at h
    simp [hnone, alookup]

theorem alookup_aset_ne {α β : Type} [DecidableEq α] (l : List (α × β)) (k k' : α) (v : β)
    (hne : k' ≠ k) : alookup (aset l k v) k' = alookup l k' := by
  by_cases h : (alookup l k).isSome = true
  · rw [aset, if_pos h, alookup_replace, if_neg hne]
  · rw [aset, if_neg h, alookup_append]
    cases hl : alookup l k' with
    | some v0 => rfl
    | none => simp [alookup, Ne.symm hne]

theorem alookup_aremove {α β : Type} [DecidableEq α] (l : List (α × β)) (k k' : α) :
    alookup (aremove l k) k' = if k' = k then none else alookup l k' := by
  induction l with
  | nil => simp [aremove, alookup]
  | cons p ps ih =>
    by_cases hp : p.1 = k
    · have hstep : aremove (p :: ps) k = aremove ps k := by
        simp [aremove, List.filter_cons, hp]
      rw [hstep, ih]
      by_cases hk : k' = k
      · simp [hk]
      · have hp' : ¬ p.1 = k' := by rw [hp]; exact fun hc => hk hc.symm
        simp [hk, alookup, hp']
    · have hstep : aremove (p :: ps) k = p :: aremove ps k := by
        simp [aremove, List.filter_cons, hp]
      rw [hstep]
      by_cases hpk : p.1 = k'
      · have hk : ¬ k' = k := fun hc => hp (hpk.trans hc)
        simp [alookup, hpk, hk]
      · simp [alookup, hpk, ih]

theorem alookup_map_snd {α β γ : Type} [DecidableEq α] (l : List (α × β)) (f : β → γ)
    (k : α) : alookup (l.map (fun p => (p.1, f p.2))) k = (alookup l k).map f := by
  induction l with
  | nil => simp [alookup]
  | cons p ps ih => by_cases h : p.1 = k <;> simp [alookup, h, ih]

theorem aset_isSome_mono {α β : Type} [DecidableEq α] {l : List (α × β)} {n k : α} {v : β}
    (h : (alookup l n).isSome = true) : (alookup (aset l k v) n).isSome = true := by
  by_cases hk : n = k
  · subst hk; rw [alookup_aset_self]; rfl
  · rw [alookup_aset_ne _ _ _ _ hk]; exact h

/-! ### Generic list helpers -/

theorem nodup_getElem?_inj {α : Type} {l : List α} (h : l.Nodup) {i j : Nat} {a : α}
    (h1 : l[i]? = some a) (h2 : l[j]? = some a) : i = j := by
  obtain ⟨hi, e1⟩ := List.getElem?_eq_some.mp h1
  obtain ⟨hj, e2⟩ := List.getElem?_eq_some.mp h2
  exact (List.Nodup.getElem_inj_iff h).mp (e1.trans e2.symm)

/-- When construction indices are positions, each member sits at its own
index. -/
theorem ids_getElem {ms : List Member} (hids : ms.map Member.id = List.range ms.length)
    {m : Member} (hm : m ∈ ms) : ms[m.id]? = some m := by
  obtain ⟨i, hi⟩ := List.mem_iff_getElem?.mp hm
  have hlen : i < ms.length := (List.getElem?_eq_some.mp hi).1
  have hmap : (ms.map Member.id)[i]? = some m.id := by
    rw [List.getElem?_map, hi]; rfl
  rw [hids, List.getElem?_range hlen] at hmap
  have hid : i = m.id := by injection hmap
  rw [← hid]
  exact hi

theorem alookup_value_of_mem {ms : List Member}
    (hnd : (ms.map Member.value).Nodup) {m : Member} (hm : m ∈ ms) :
    alookup (ms.map (fun x => (x.value, x.id))) m.value = some m.id := by
  induction ms with
  | nil => cases hm
  | cons x xs ih =>
    rw [List.map_cons] at hnd
    obtain ⟨hx, hnd2⟩ := List.nodup_cons.mp hnd
    rcases List.mem_cons.mp hm with h | h
    · subst h
      simp [alookup]
    · have hne : ¬ x.value = m.value := by
        intro hc
        exact hx (by rw [hc]; exact List.mem_map_of_mem Member.value h)
      simp only [List.map_cons, alookup, hne, if_false]
      exact ih hnd2 h

/-! ### The construction-loop invariant -/

theorem vidx_lookup_mem {ns : List (String × NsVal)} {st : BuildSt} (hg : Good ns st)
    {v : PyVal} {i : Nat} (h : alookup st.valueIndex v = some i) :
    ∃ m, st.members[i]? = some m ∧ m.value = v ∧ m.id = i := by
  rw [hg.vidx] at h
  obtain ⟨m, hm, hpair⟩ := List.mem_map.mp (alookup_mem h)
  have hv : m.value = v := congrArg Prod.fst hpair
  have hi : m.id = i := congrArg Prod.snd hpair
  refine ⟨m, ?_, hv, hi⟩
  rw [← hi]
  exact ids_getElem hg.ids hm

theorem vidx_keys {ns : List (String × NsVal)} {st : BuildSt} (hg : Good ns st) :
    st.valueIndex.map Prod.fst = st.members.map Member.value := by
  rw [hg.vidx, List.map_map]
  rfl

theorem vidx_lookup_none {ns : List (String × NsVal)} {st : BuildSt} (hg : Good ns st)
    {v : PyVal} :
    alookup st.valueIndex v = none ↔ v ∉ st.members.map Member.value := by
  rw [alookup_eq_none, vidx_keys hg]

theorem good_init (d : Decl) : Good (finalNs d) ⟨[], [], [], dict0 d⟩ := by
  refine ⟨rfl, rfl, List.nodup_nil, ?_, ?_, ?_, ?_⟩
  · intro n i h
    simp [alookup] at h
  · intro n i h
    simp [alookup] at h
  · intro n _
    exact alookup_map_snd _ _ _
  · intro n h
    simp [alookup] at h

theorem buildStep_resolve {ns : List (String × NsVal)} {st st1 : BuildSt} {s : String}
    (h : buildStep ns st s = .ok st1) : ∃ v, resolve ns s = some v := by
  unfold buildStep at h
  split at h
  · cases h
  next raw hraw =>
    split at h
    · cases h
    next v0 rest htup =>
      refine ⟨v0, ?_⟩
      unfold resolve
      rw [hraw]
      simp [htup]

theorem good_step {ns : List (String × NsVal)} {st st1 : BuildSt} {s : String}
    (hg : Good ns st) (hs : isPublicUpper s = true)
    (h : buildStep ns st s = .ok st1) : Good ns st1 := by
  unfold buildStep at h
  split at h
  · cases h
  next raw hraw =>
    split at h
    · cases h
    next v0 rest htup =>
      have hres : resolve ns s = some v0 := by
        unfold resolve; rw [hraw]; simp [htup]
      split at h
      next i hvi =>
        injection h with h1
        subst h1
        obtain ⟨m, hm, hmv, hmi⟩ := vidx_lookup_mem hg hvi
        refine ⟨hg.vidx, hg.ids, hg.nodup, ?_, ?_, ?_, ?_⟩
        · intro n j hn
          by_cases hns : n = s
          · subst hns
            rw [alookup_aset_self] at hn
            injection hn with hj
            subst hj
            exact ⟨m, hm, by rw [hres, hmv]⟩
          · rw [alookup_aset_ne _ _ _ _ hns] at hn
            exact hg.names n j hn
        · intro n j hn
          by_cases hns : n = s
          · subst hns
            rw [alookup_aset_self] at hn
            injection hn with hj
            subst hj
            exact alookup_aset_self _ _ _
          · rw [alookup_aset_ne _ _ _ _ hns] at hn
            rw [alookup_aset_ne _ _ _ _ hns]
            exact hg.dict n j hn
        · intro n hn
          by_cases hns : n = s
          · subst hns
            rw [alookup_aset_self] at hn
            cases hn
          · rw [alookup_aset_ne _ _ _ _ hns] at hn
            rw [alookup_aset_ne _ _ _ _ hns]
            exact hg.dictPlain n hn
        · intro n hn
          by_cases hns : n = s
          · subst hns; exact hs
          · rw [alookup_aset_ne _ _ _ _ hns] at hn
            exact hg.pubkeys n hn
      next hvi =>
        injection h with h1
        subst h1
        have hnew : v0 ∉ st.members.map Member.value := (vidx_lookup_none hg).mp hvi
        refine ⟨?_, ?_, ?_, ?_, ?_, ?_, ?_⟩
        · show st.valueIndex ++ [(v0, st.members.length)] = _
          rw [List.map_append, hg.vidx]
          rfl
        · show (st.members ++ [_]).map Member.id = _
          rw [List.map_append, hg.ids, List.length_append]
          simp [List.range_succ]
        · show ((st.members ++ [_]).map Member.value).Nodup
          rw [List.map_append, List.nodup_append]
          refine ⟨hg.nodup, List.nodup_singleton _, ?_⟩
          intro x hx hx1
          simp at hx1
          subst hx1
          exact hnew hx
        · intro n j hn
          by_cases hns : n = s
          · subst hns
            rw [alookup_aset_self] at hn
            injection hn with hj
            subst hj
            exact ⟨_, List.getElem?_concat_length _ _, hres⟩
          · rw [alookup_aset_ne _ _ _ _ hns] at hn
            obtain ⟨m, hm, hr⟩ := hg.names n j hn
            refine ⟨m, ?_, hr⟩
            have hlt : j < st.members.length := (List.getElem?_eq_some.mp hm).1
            show (st.members ++ _)[j]? = some m
            rw [List.getElem?_append, if_pos hlt]
            exact hm
        · intro n j hn
          by_cases hns : n = s
          · subst hns
            rw [alookup_aset_self] at hn
            injection hn with hj
            subst hj
            exact alookup_aset_self _ _ _
          · rw [alookup_aset_ne _ _ _ _ hns] at hn
            rw [alookup_aset_ne _ _ _ _ hns]
            exact hg.dict n j hn
        · intro n hn
          by_cases hns : n = s
          · subst hns
            rw [alookup_aset_self] at hn
            cases hn
          · rw [alookup_aset_ne _ _ _ _ hns] at hn
            rw [alookup_aset_ne _ _ _ _ hns]
            exact hg.dictPlain n hn
        · intro n hn
          by_cases hns : n = s
          · subst hns; exact hs
          · rw [alookup_aset_ne _ _ _ _ hns] at hn
            exact hg.pubkeys n hn

theorem good_fold {ns : List (String × NsVal)} :
    ∀ (attrs : List String) (st st2 : BuildSt), Good ns st →
      (∀ a ∈ attrs, isPublicUpper a = true) →
      buildFold ns attrs st = .ok st2 → Good ns st2 := by
  intro attrs
  induction attrs with
  | nil =>
    intro st st2 hg _ h
    unfold buildFold at h
    injection h with h1
    subst h1
    exact hg
  | cons a rest ih =>
    intro st st2 hg hpub h
    unfold buildFold at h
    cases hstep : buildStep ns st a with
    | error e => rw [hstep] at h; cases h
    | ok st1 =>
      rw [hstep] at h
      exact ih st1 st2 (good_step hg (hpub a (by simp)) hstep)
        (fun b hb => hpub b (by simp [hb])) h

/-- A successful step writes the processed name into the name index and the
class dict and leaves other keys of both untouched. -/
theorem buildStep_shape {ns : List (String × NsVal)} {st st1 : BuildSt} {s : String}
    (h : buildStep ns st s = .ok st1) :
    ∃ i, st1.nameIndex = aset st.nameIndex s i ∧
      st1.classDict = aset st.classDict s (.member i) := by
  unfold buildStep at h
  split at h
  · cases h
  next raw hraw =>
    split at h
    · cases h
    next v0 rest htup =>
      split at h
      next i hvi =>
        injection h with h1
        subst h1
        exact ⟨i, rfl, rfl⟩
      next hvi =>
        injection h with h1
        subst h1
        exact ⟨st.members.length, rfl, rfl⟩

theorem fold_name_isSome {ns : List (String × NsVal)} :
    ∀ (attrs : List String) (st st2 : BuildSt),
      buildFold ns attrs st = .ok st2 →
      ∀ a, ((alookup st.nameIndex a).isSome = true ∨ a ∈ attrs) →
        (alookup st2.nameIndex a).isSome = true := by
  intro attrs
  induction attrs with
  | nil =>
    intro st st2 h a ha
    unfold buildFold at h
    injection h with h1
    subst h1
    rcases ha with ha | ha
    · exact ha
    · cases ha
  | cons b rest ih =>
    intro st st2 h a ha
    unfold buildFold at h
    cases hstep : buildStep ns st b with
    | error e => rw [hstep] at h; cases h
    | ok st1 =>
      rw [hstep] at h
      obtain ⟨i, hni, _⟩ := buildStep_shape hstep
      rcases ha with ha | ha
      · exact ih st1 st2 h a (Or.inl (by rw [hni]; exact aset_isSome_mono ha))
      · rcases List.mem_cons.mp ha with hab | har
        · subst hab
          exact ih st1 st2 h a (Or.inl (by rw [hni, alookup_aset_self]; rfl))
        · exact ih st1 st2 h a (Or.inr har)

theorem fold_not_mem {ns : List (String × NsVal)} :
    ∀ (attrs : List String) (st st2 : BuildSt),
      buildFold ns attrs st = .ok st2 →
      ∀ a, a ∉ attrs →
        alookup st2.nameIndex a = alookup st.nameIndex a ∧
        alookup st2.classDict a = alookup st.classDict a := by
  intro attrs
  induction attrs with
  | nil =>
    intro st st2 h a _
    unfold buildFold at h
    injection h with h1
    subst h1
    exact ⟨rfl, rfl⟩
  | cons b rest ih =>
    intro st st2 h a ha
    have hab : a ≠ b := fun hc => ha (by rw [hc]; simp)
    have har : a ∉ rest := fun hc => ha (by simp [hc])
    unfold buildFold at h
    cases hstep : buildStep ns st b with
    | error e => rw [hstep] at h; cases h
    | ok st1 =>
      rw [hstep] at h
      obtain ⟨i, hni, hcd⟩ := buildStep_shape hstep
      obtain ⟨h1, h2⟩ := ih st1 st2 h a har
      constructor
      · rw [h1, hni, alookup_aset_ne _ _ _ _ hab]
      · rw [h2, hcd, alookup_aset_ne _ _ _ _ hab]

theorem fold_resolve {ns : List (String × NsVal)} :
    ∀ (attrs : List String) (st st2 : BuildSt),
      buildFold ns attrs st = .ok st2 →
      ∀ a ∈ attrs, ∃ v, resolve ns a = some v := by
  intro attrs
  induction attrs with
  | nil =>
    intro st st2 _ a ha
    cases ha
  | cons b rest ih =>
    intro st st2 h a ha
    unfold buildFold at h
    cases hstep : buildStep ns st b with
    | error e => rw [hstep] at h; cases h
    | ok st1 =>
      rw [hstep] at h
      rcases List.mem_cons.mp ha with hab | har
      · subst hab
        exact buildStep_resolve hstep
      · exact ih st1 st2 h a har

/-- Main characterisation of the construction loop: the members it appends
are exactly the first claimants of the distinct resolved values, in
processing order. -/
theorem build_members {ns : List (String × NsVal)} :
    ∀ (attrs : List String) (st st2 : BuildSt), Good ns st →
      (∀ a ∈ attrs, isPublicUpper a = true) →
      buildFold ns attrs st = .ok st2 →
      st2.members.map (fun m => (m.name, m.value)) =
        st.members.map (fun m => (m.name, m.value)) ++
          firstClaims ns attrs (st.members.map Member.value) := by
  intro attrs
  induction attrs with
  | nil =>
    intro st st2 _ _ h
    unfold buildFold at h
    injection h with h1
    subst h1
    simp [firstClaims]
  | cons a rest ih =>
    intro st st2 hg hpub h
    unfold buildFold at h
    cases hstep : buildStep ns st a with
    | error e => rw [hstep] at h; cases h
    | ok st1 =>
      rw [hstep] at h
      have hg1 : Good ns st1 := good_step hg (hpub a (by simp)) hstep
      have hpub1 : ∀ b ∈ rest, isPublicUpper b = true := fun b hb => hpub b (by simp [hb])
      have hrec := ih st1 st2 hg1 hpub1 h
      unfold buildStep at hstep
      split at hstep
      · cases hstep
      next raw hraw =>
        split at hstep
        · cases hstep
        next v0 vrest htup =>
          have hres : resolve ns a = some v0 := by
            unfold resolve; rw [hraw]; simp [htup]
          split at hstep
          next i hvi =>
            injection hstep with h1
            subst h1
            have hmem : v0 ∈ st.members.map Member.value := by
              by_contra hc
              rw [← vidx_lookup_none hg] at hc
              rw [hvi] at hc
              cases hc
            rw [hrec]
            simp [firstClaims, hres, hmem]
          next hvi =>
            injection hstep with h1
            subst h1
            have hmem : v0 ∉ st.members.map Member.value := (vidx_lookup_none hg).mp hvi
            rw [hrec]
            simp only [List.map_append, List.map_cons, List.map_nil]
            rw [firstClaims]
            rw [hres]
            simp only [hmem, if_false]
            simp [List.append_assoc]

/-! ### Properties of the first-claimant characterisation -/

theorem fc_notin_seen {ns : List (String × NsVal)} :
    ∀ (attrs : List String) (seen : List PyVal) (n : String) (v : PyVal),
      (n, v) ∈ firstClaims ns attrs seen → v ∉ seen := by
  intro attrs
  induction attrs with
  | nil =>
    intro seen n v h
    simp [firstClaims] at h
  | cons a rest ih =>
    intro seen n v h
    rw [firstClaims] at h
    cases hres : resolve ns a with
    | none => rw [hres] at h; cases h
    | some w =>
      rw [hres] at h
      dsimp only at h
      by_cases hw : w ∈ seen
      · rw [if_pos hw] at h
        exact ih seen n v h
      · rw [if_neg hw] at h
        rcases List.mem_cons.mp h with h1 | h1
        · have hvw : v = w := congrArg Prod.snd h1
          rw [hvw]
          exact hw
        · intro hv
          exact ih (seen ++ [w]) n v h1 (List.mem_append_left _ hv)

theorem fc_first {ns : List (String × NsVal)} :
    ∀ (attrs : List String) (seen : List PyVal) (n : String) (v : PyVal),
      (n, v) ∈ firstClaims ns attrs seen →
      attrs.find? (fun a => decide (resolve ns a = some v)) = some n := by
  intro attrs
  induction attrs with
  | nil =>
    intro seen n v h
    simp [firstClaims] at h
  | cons a rest ih =>
    intro seen n v h
    rw [firstClaims] at h
    cases hres : resolve ns a with
    | none => rw [hres] at h; cases h
    | some w =>
      rw [hres] at h
      dsimp only at h
      by_cases hw : w ∈ seen
      · rw [if_pos hw] at h
        have hvs : v ∉ seen := fc_notin_seen rest seen n v h
        have hne : ¬ w = v := fun hc => hvs (hc ▸ hw)
        rw [List.find?_cons_of_neg, ih seen n v h]
        simp [hres, hne]
      · rw [if_neg hw] at h
        rcases List.mem_cons.mp h with h1 | h1
        · have hvw : v = w := congrArg Prod.snd h1
          have hna : n = a := congrArg Prod.fst h1
          subst hvw
          subst hna
          rw [List.find?_cons_of_pos]
          simp [hres]
        · have hvs : v ∉ seen ++ [w] := fc_notin_seen rest (seen ++ [w]) n v h1
          have hne : ¬ w = v := fun hc => hvs (by rw [hc]; exact List.mem_append_right _ (by simp))
          rw [List.find?_cons_of_neg, ih (seen ++ [w]) n v h1]
          simp [hres, hne]

theorem fc_mem {ns : List (String × NsVal)} :
    ∀ (attrs : List String) (seen : List PyVal),
      (∀ a ∈ attrs, ∃ w, resolve ns a = some w) →
      ∀ v, v ∈ (firstClaims ns attrs seen).map Prod.snd ↔
        (v ∉ seen ∧ ∃ a ∈ attrs, resolve ns a = some v) := by
  intro attrs
  induction attrs with
  | nil =>
    intro seen _ v
    simp [firstClaims]
  | cons a rest ih =>
    intro seen hall v
    obtain ⟨w, hw⟩ := hall a (by simp)
    have hrest : ∀ b ∈ rest, ∃ u, resolve ns b = some u :=
      fun b hb => hall b (by simp [hb])
    rw [firstClaims, hw]
    dsimp only
    by_cases hws : w ∈ seen
    · rw [if_pos hws, ih seen hrest v]
      constructor
      · rintro ⟨hvs, b, hb, hrb⟩
        exact ⟨hvs, b, by simp [hb], hrb⟩
      · rintro ⟨hvs, b, hb, hrb⟩
        rcases List.mem_cons.mp hb with h1 | h1
        · subst h1
          rw [hw] at hrb
          injection hrb with hvw
          exact absurd hws (hvw ▸ hvs)
        · exact ⟨hvs, b, h1, hrb⟩
    · rw [if_neg hws]
      rw [List.map_cons]
      by_cases hvw : v = w
      · subst hvw
        simp only [List.mem_cons, true_or]
        constructor
        · intro _
          exact ⟨hws, a, by simp, hw⟩
        · intro _
          trivial
      · constructor
        · intro hmem
          rcases List.mem_cons.mp hmem with h1 | h1
          · exact absurd h1 hvw
          · obtain ⟨hvs, b, hb, hrb⟩ := (ih (seen ++ [w]) hrest v).mp h1
            refine ⟨fun hc => hvs (List.mem_append_left _ hc), b, by simp [hb], hrb⟩
        · rintro ⟨hvs, b, hb, hrb⟩
          rcases List.mem_cons.mp hb with h1 | h1
          · subst h1
            rw [hw] at hrb
            injection hrb with hvw2
            exact absurd hvw2.symm hvw
          · right
            refine ((ih (seen ++ [w]) hrest v).mpr ⟨?_, b, h1, hrb⟩)
            intro hc
            rcases List.mem_append.mp hc with h2 | h2
            · exact hvs h2
            · simp at h2
              exact hvw h2

/-! ### The hook loop -/

theorem runHook_log_aux (hk : HookFn) (vidx : List (PyVal × Nat)) :
    ∀ (L : List Nat) (ms0 : List Member) (log0 : List Nat),
      (L.foldl (fun acc i => (hk vidx acc.1 i, acc.2 ++ [i])) (ms0, log0)).2 =
        log0 ++ L := by
  intro L
  induction L with
  | nil => intro ms0 log0; simp
  | cons i L ih =>
    intro ms0 log0
    simp only [List.foldl_cons]
    rw [ih]
    simp

theorem runHook_log (hk : HookFn) (vidx : List (PyVal × Nat)) (ms : List Member) :
    (runHook hk vidx ms).2 = List.range ms.length := by
  unfold runHook
  rw [runHook_log_aux]
  simp

theorem runHook_proj_aux (hk : HookFn) (htame : TameHook hk)
    (vidx : List (PyVal × Nat)) :
    ∀ (L : List Nat) (ms0 : List Member) (log0 : List Nat),
      (L.foldl (fun acc i => (hk vidx acc.1 i, acc.2 ++ [i])) (ms0, log0)).1.map projNV =
        ms0.map projNV := by
  intro L
  induction L with
  | nil => intro ms0 log0; simp
  | cons i L ih =>
    intro ms0 log0
    simp only [List.foldl_cons]
    rw [ih]
    exact htame vidx ms0 i

theorem runHook_proj {hk : HookFn} (htame : TameHook hk)
    (vidx : List (PyVal × Nat)) (ms : List Member) :
    (runHook hk vidx ms).1.map projNV = ms.map projNV := by
  unfold runHook
  exact runHook_proj_aux hk htame vidx _ ms []

/-! ### Facts about attribute names -/

theorem attributesOf_public (d : Decl) :
    ∀ a ∈ attributesOf d, isPublicUpper a = true := by
  intro a ha
  unfold attributesOf at ha
  rcases List.mem_append.mp ha with h | h
  · obtain ⟨p, _, hp⟩ := List.mem_filterMap.mp h
    by_cases hc : isPublicUpper p.1 = true
    · rw [if_pos hc] at hp
      injection hp with hpa
      rw [← hpa]
      exact hc
    · rw [if_neg hc] at hp
      cases hp
  · obtain ⟨p, _, hp⟩ := List.mem_filterMap.mp h
    by_cases hc : (isPublicUpper p.1 && p.2 == d.name) = true
    · rw [if_pos hc] at hp
      injection hp with hpa
      rw [← hpa]
      exact (Bool.and_eq_true _ _ |>.mp hc).1
    · rw [if_neg hc] at hp
      cases hp

theorem hookKey_not_public (d : Decl) : isPublicUpper (hookKey d) = false := by
  have hdata : (hookKey d).data = '_' :: (d.name.data ++ "__init_late".data) := by
    unfold hookKey
    rw [String.data_append, String.data_append]
    rfl
  unfold isPublicUpper startsUnderscore
  rw [hdata]
  simp

/-! ### Structure of successful type creation -/

theorem mk_empty (bf : Bool) (hk : HookFn) (d : Decl)
    (hattr : attributesOf d = []) :
    mkEnum bf hk d = .ok ⟨d.name, [], [], [], dict0 d, bf || ownFin d, []⟩ := by
  unfold mkEnum
  rw [if_pos]
  rw [hattr]
  rfl

theorem mk_blocked (bf : Bool) (hk : HookFn) (d : Decl)
    (hattr : attributesOf d ≠ []) (hfin : (bf || ownFin d) = true) :
    mkEnum bf hk d = .error restrictMsg := by
  unfold mkEnum
  rw [if_neg (by simpa [List.isEmpty_iff] using hattr), if_pos hfin]

theorem mk_sealed {bf : Bool} {hk : HookFn} {d : Decl} {t : EnumType}
    (hok : mkEnum bf hk d = .ok t) (hattr : attributesOf d ≠ []) :
    bf = false ∧ ownFin d = false ∧ t.typeName = d.name ∧ t.finalized = true ∧
    ∃ st, buildFold (finalNs d) (attributesOf d) ⟨[], [], [], dict0 d⟩ = .ok st ∧
      t.valueIndex = st.valueIndex ∧ t.nameIndex = st.nameIndex ∧
      ((t.members = st.members ∧ t.classDict = st.classDict ∧ t.hookLog = [] ∧
          alookup (nsOf d.bindings) (hookKey d) = none) ∨
       (t.members = (runHook hk st.valueIndex st.members).1 ∧
          t.classDict = aremove st.classDict (hookKey d) ∧
          t.hookLog = List.range st.members.length ∧
          alookup (nsOf d.bindings) (hookKey d) = some (.val .func))) := by
  unfold mkEnum at hok
  rw [if_neg (by simpa [List.isEmpty_iff] using hattr)] at hok
  cases hfin : (bf || ownFin d) with
  | true => rw [if_pos hfin] at hok; cases hok
  | false =>
    rw [if_neg (by simp [hfin])] at hok
    obtain ⟨hbf, hof⟩ := Bool.or_eq_false_iff.mp hfin
    refine ⟨hbf, hof, ?_⟩
    cases hfold : buildFold (finalNs d) (attributesOf d) ⟨[], [], [], dict0 d⟩ with
    | error e => rw [hfold] at hok; cases hok
    | ok st =>
      rw [hfold] at hok
      cases hhk : alookup (nsOf d.bindings) (hookKey d) with
      | none =>
        rw [hhk] at hok
        dsimp only at hok
        injection hok with h1
        subst h1
        exact ⟨rfl, rfl, st, rfl, rfl, rfl, Or.inl ⟨rfl, rfl, rfl, rfl⟩⟩
      | some nv =>
        rw [hhk] at hok
        cases nv with
        | val pv =>
          cases pv with
          | func =>
            dsimp only at hok
            injection hok with h1
            subst h1
            exact ⟨rfl, rfl, st, rfl, rfl, rfl,
              Or.inr ⟨rfl, rfl, runHook_log hk st.valueIndex st.members, rfl⟩⟩
          | int n => dsimp only at hok; cases hok
          | str s => dsimp only at hok; cases hok
          | pybool b => dsimp only at hok; cases hok
          | ref i => dsimp only at hok; cases hok
        | tup vs => dsimp only at hok; cases hok

theorem mk_good {bf : Bool} {hk : HookFn} {d : Decl} {t : EnumType}
    (htame : TameHook hk) (hok : mkEnum bf hk d = .ok t) :
    t.members.map (fun m => (m.name, m.value)) =
        firstClaims (finalNs d) (attributesOf d) [] ∧
    t.members.map Member.id = List.range t.members.length ∧
    (t.members.map Member.value).Nodup ∧
    t.valueIndex = t.members.map (fun m => (m.value, m.id)) ∧
    (∀ n i, alookup t.nameIndex n = some i →
       ∃ m, t.members[i]? = some m ∧ resolve (finalNs d) n = some m.value) ∧
    (∀ n i, alookup t.nameIndex n = some i →
       alookup t.classDict n = some (.member i)) ∧
    (∀ n ∈ attributesOf d, (alookup t.nameIndex n).isSome = true) ∧
    (∀ n, alookup t.nameIndex n = none → n ≠ hookKey d →
       alookup t.classDict n = (alookup (finalNs d) n).map ClassAttr.plain) ∧
    (∀ n i, alookup t.nameIndex n = some i → isPublicUpper n = true) := by
  by_cases hattr : attributesOf d = []
  · have ht := mk_empty bf hk d hattr
    rw [ht] at hok
    injection hok with h1
    subst h1
    refine ⟨by rw [hattr]; rfl, rfl, List.nodup_nil, rfl, ?_, ?_, ?_, ?_, ?_⟩
    · intro n i hn; cases hn
    · intro n i hn; cases hn
    · intro n hn; rw [hattr] at hn; cases hn
    · intro n _ _; exact alookup_map_snd _ _ _
    · intro n i hn; cases hn
  · obtain ⟨hbf, hof, htn, hfin, st, hfold, hvi, hni, hcase⟩ := mk_sealed hok hattr
    have hgood : Good (finalNs d) st :=
      good_fold _ _ _ (good_init d) (attributesOf_public d) hfold
    have hmemb : st.members.map (fun m => (m.name, m.value)) =
        firstClaims (finalNs d) (attributesOf d) [] := by
      have := build_members _ _ _ (good_init d) (attributesOf_public d) hfold
      simpa using this
    rcases hcase with ⟨htm, hcd, _, _⟩ | ⟨htm, hcd, _, hhk⟩
    · refine ⟨by rw [htm]; exact hmemb, by rw [htm]; exact hgood.ids,
        by rw [htm]; exact hgood.nodup, by rw [hvi, htm, hgood.vidx],
        ?_, ?_, ?_, ?_, ?_⟩
      · intro n i hn
        rw [hni] at hn
        rw [htm]
        exact hgood.names n i hn
      · intro n i hn; rw [hni] at hn; rw [hcd]; exact hgood.dict n i hn
      · intro n hn
        rw [hni]
        exact fold_name_isSome _ _ _ hfold n (Or.inr hn)
      · intro n hn _
        rw [hni] at hn
        rw [hcd]
        exact hgood.dictPlain n hn
      · intro n i hn
        rw [hni] at hn
        exact hgood.pubkeys n (by rw [hn]; rfl)
    · have hproj : t.members.map projNV = st.members.map projNV := by
        rw [htm]; exact runHook_proj htame _ _
      have hlen : t.members.length = st.members.length := by
        have := congrArg List.length hproj
        simpa using this
      refine ⟨?_, ?_, ?_, ?_, ?_, ?_, ?_, ?_, ?_⟩
      · have := congrArg (List.map (fun q : Nat × String × PyVal => (q.2.1, q.2.2))) hproj
        simp only [List.map_map] at this
        have hl : t.members.map
            ((fun q : Nat × String × PyVal => (q.2.1, q.2.2)) ∘ projNV) =
            t.members.map (fun m => (m.name, m.value)) := by
          simp [Function.comp, projNV]
        have hr : st.members.map
            ((fun q : Nat × String × PyVal => (q.2.1, q.2.2)) ∘ projNV) =
            st.members.map (fun m => (m.name, m.value)) := by
          simp [Function.comp, projNV]
        rw [hl, hr] at this
        rw [this, hmemb]
      · have := congrArg (List.map (fun q : Nat × String × PyVal => q.1)) hproj
        simp only [List.map_map] at this
        have hl : t.members.map ((fun q : Nat × String × PyVal => q.1) ∘ projNV) =
            t.members.map Member.id := by simp [Function.comp, projNV]
        have hr : st.members.map ((fun q : Nat × String × PyVal => q.1) ∘ projNV) =
            st.members.map Member.id := by simp [Function.comp, projNV]
        rw [hl, hr] at this
        rw [this, hgood.ids, hlen]
      · have := congrArg (List.map (fun q : Nat × String × PyVal => q.2.2)) hproj
        simp only [List.map_map] at this
        have hl : t.members.map ((fun q : Nat × String × PyVal => q.2.2) ∘ projNV) =
            t.members.map Member.value := by simp [Function.comp, projNV]
        have hr : st.members.map ((fun q : Nat × String × PyVal => q.2.2) ∘ projNV) =
            st.members.map Member.value := by simp [Function.comp, projNV]
        rw [hl, hr] at this
        rw [this]
        exact hgood.nodup
      · have := congrArg (List.map (fun q : Nat × String × PyVal => (q.2.2, q.1))) hproj
        simp only [List.map_map] at this
        have hl : t.members.map ((fun q : Nat × String × PyVal => (q.2.2, q.1)) ∘ projNV) =
            t.members.map (fun m => (m.value, m.id)) := by simp [Function.comp, projNV]
        have hr : st.members.map ((fun q : Nat × String × PyVal => (q.2.2, q.1)) ∘ projNV) =
            st.members.map (fun m => (m.value, m.id)) := by simp [Function.comp, projNV]
        rw [hl, hr] at this
        rw [hvi, hgood.vidx, ← this]
      · intro n i hn
        rw [hni] at hn
        obtain ⟨m, hm, hres⟩ := hgood.names n i hn
        have hq : (t.members.map projNV)[i]? = some (projNV m) := by
          rw [hproj, List.getElem?_map, hm]
          rfl
        rw [List.getElem?_map] at hq
        cases ht2 : t.members[i]? with
        | none => rw [ht2] at hq; cases hq
        | some m2 =>
          rw [ht2] at hq
          injection hq with hq2
          have hval : m2.value = m.value := congrArg (fun q : Nat × String × PyVal => q.2.2) hq2
          exact ⟨m2, rfl, by rw [hres, hval]⟩
      · intro n i hn
        rw [hni] at hn
        have hpub : isPublicUpper n = true := hgood.pubkeys n (by rw [hn]; rfl)
        have hnhk : ¬ n = hookKey d := by
          intro hc
          rw [hc, hookKey_not_public d] at hpub
          cases hpub
        rw [hcd, alookup_aremove, if_neg hnhk]
        exact hgood.dict n i hn
      · intro n hn
        rw [hni]
        exact fold_name_isSome _ _ _ hfold n (Or.inr hn)
      · intro n hn hnhk
        rw [hni] at hn
        rw [hcd, alookup_aremove, if_neg hnhk]
        exact hgood.dictPlain n hn
      · intro n i hn
        rw [hni] at hn
        exact hgood.pubkeys n (by rw [hn]; rfl)

/-! ### The auto-valuing loop -/

theorem autoFill_preserves :
    ∀ (attrs : List String) (ns : List (String × NsVal)) (lv : Int) (a : String),
      (alookup ns a).isSome = true →
      alookup (autoFill attrs ns lv) a = alookup ns a := by
  intro attrs
  induction attrs with
  | nil => intro ns lv a _; rfl
  | cons b rest ih =>
    intro ns lv a ha
    unfold autoFill
    by_cases hb : (alookup ns b).isSome = true
    · rw [if_pos hb]
      exact ih ns lv a ha
    · rw [if_neg hb]
      by_cases hab : a = b
      · subst hab
        exact absurd ha hb
      · rw [ih _ _ _ (aset_isSome_mono ha), alookup_aset_ne _ _ _ _ hab]

theorem autoFill_not_mem :
    ∀ (attrs : List String) (ns : List (String × NsVal)) (lv : Int) (a : String),
      a ∉ attrs → alookup (autoFill attrs ns lv) a = alookup ns a := by
  intro attrs
  induction attrs with
  | nil => intro ns lv a _; rfl
  | cons b rest ih =>
    intro ns lv a ha
    have hab : a ≠ b := fun hc => ha (by rw [hc]; simp)
    have har : a ∉ rest := fun hc => ha (by simp [hc])
    unfold autoFill
    by_cases hb : (alookup ns b).isSome = true
    · rw [if_pos hb]
      exact ih ns lv a har
    · rw [if_neg hb, ih _ _ _ har, alookup_aset_ne _ _ _ _ hab]

theorem autoFill_fresh :
    ∀ (attrs : List String) (ns : List (String × NsVal)) (lv : Int),
      (∀ a ∈ attrs, alookup ns a = none) → attrs.Nodup →
      ∀ (k : Nat) (a : String), attrs[k]? = some a →
        alookup (autoFill attrs ns lv) a = some (.val (.int (lv + k))) := by
  intro attrs
  induction attrs with
  | nil =>
    intro ns lv _ _ k a h
    cases h
  | cons b rest ih =>
    intro ns lv hnew hnd k a hk
    have hb : alookup ns b = none := hnew b (by simp)
    obtain ⟨hbr, hnd2⟩ := List.nodup_cons.mp hnd
    unfold autoFill
    rw [if_neg (by rw [hb]; simp)]
    cases k with
    | zero =>
      have hab : b = a := by simpa using hk
      subst hab
      rw [autoFill_not_mem rest _ _ b hbr, alookup_aset_self]
      norm_num
    | succ k2 =>
      have hk2 : rest[k2]? = some a := by simpa using hk
      have hnew2 : ∀ x ∈ rest, alookup (aset ns b (.val (.int lv))) x = none := by
        intro x hx
        have hxb : x ≠ b := fun hc => hbr (hc ▸ hx)
        rw [alookup_aset_ne _ _ _ _ hxb]
        exact hnew x (by simp [hx])
      rw [ih _ _ hnew2 hnd2 k2 a hk2]
      congr 3
      push_cast
      ring

/-! ### Tameness of the example hooks -/

theorem trivialHook_tame : TameHook trivialHook :=
  fun _ _ _ => rfl

theorem hkHalved_tame : TameHook hkHalved := by
  intro vidx ms i
  show (ms.map _).map projNV = ms.map projNV
  rw [List.map_map]
  apply List.map_congr_left
  intro m _
  show projNV (if m.id = i then _ else m) = projNV m
  by_cases h : m.id = i
  · rw [if_pos h]
    cases hv : m.value with
    | int v =>
      cases hl : alookup vidx (.int (Int.fdiv v 2)) with
      | some j => simp [hl, projNV, hv]
      | none => simp [hl, projNV, hv]
    | str s => rfl
    | pybool b => rfl
    | func => rfl
    | ref r => rfl
  · rw [if_neg h]

/-- Names outside the attribute list never enter the name index. -/
theorem mk_not_attr {bf : Bool} {hk : HookFn} {d : Decl} {t : EnumType}
    (hok : mkEnum bf hk d = .ok t) (n : String)
    (hna : n ∉ attributesOf d) : alookup t.nameIndex n = none := by
  by_cases hattr : attributesOf d = []
  · rw [mk_empty bf hk d hattr] at hok
    injection hok with h1
    rw [← h1]
    rfl
  · obtain ⟨_, _, _, _, st, hfold, _, hni, _⟩ := mk_sealed hok hattr
    rw [hni]
    exact (fold_not_mem _ _ _ hfold n hna).1

/-! ## The claims -/

/-- C1: with zero-based numbering and source order AUTO_ZERO (auto), ONE = 1,
AUTO_ONE (auto), TWO = 2, the values resolve to AUTO_ZERO = 0, ONE = 1,
AUTO_ONE = 1, TWO = 2, and the name AUTO_ONE is bound to the identical member
object as ONE (the same construction index, hence an alias, not a second
instance). -/
theorem c1_mixed_resolution :
    valueOfName (mkEnum false trivialHook mixedSpecDecl) "AUTO_ZERO" = some (.int 0) ∧
    valueOfName (mkEnum false trivialHook mixedSpecDecl) "ONE" = some (.int 1) ∧
    valueOfName (mkEnum false trivialHook mixedSpecDecl) "AUTO_ONE" = some (.int 1) ∧
    valueOfName (mkEnum false trivialHook mixedSpecDecl) "TWO" = some (.int 2) ∧
    idOfName (mkEnum false trivialHook mixedSpecDecl) "AUTO_ONE" =
      idOfName (mkEnum false trivialHook mixedSpecDecl) "ONE" ∧
    (idOfName (mkEnum false trivialHook mixedSpecDecl) "ONE").isSome = true := by
  decide

/-- C2 counterexample: the claim says the counter advances for every value
assigned, explicit or automatic, so on a declaration EXPLICIT = 100 followed
by an auto member (one-based) the auto member would get 2; the code skips
explicit members without touching the counter and assigns 1. -/
theorem c2_counter_counterexample :
    alookup (finalNs cntDecl) "AUTO" = some (.val (.int 1)) ∧
    alookup (specCounterFill (attributesOf cntDecl) (nsOf cntDecl.bindings)
        (startVal cntDecl)) "AUTO" = some (.val (.int 2)) ∧
    (NsVal.val (.int 1) ≠ NsVal.val (.int 2)) := by
  decide

/-- C2 (amended): the auto-numbering counter starts at 0 when the zero-based
switch is set and at 1 otherwise, and increments by 1 only when it assigns a
value to an automatic member; explicit values are left untouched and do not
advance the counter.  The k-th automatic member of an all-automatic
declaration therefore receives base + k, so three unvalued members get
1,2,3 with the switch off and 0,1,2 with it on. -/
theorem c2_counter_amended :
    (∀ (d : Decl) (a : String), (alookup (nsOf d.bindings) a).isSome = true →
       alookup (finalNs d) a = alookup (nsOf d.bindings) a) ∧
    (∀ (attrs : List String) (ns : List (String × NsVal)) (lv : Int),
       (∀ a ∈ attrs, alookup ns a = none) → attrs.Nodup →
       ∀ (k : Nat) (a : String), attrs[k]? = some a →
         alookup (autoFill attrs ns lv) a = some (.val (.int (lv + k)))) ∧
    memberValues (mkEnum false trivialHook lightDecl) =
      some [.int 1, .int 2, .int 3] ∧
    memberValues (mkEnum false trivialHook zlightDecl) =
      some [.int 0, .int 1, .int 2] := by
  refine ⟨?_, autoFill_fresh, by decide, by decide⟩
  intro d a ha
  unfold finalNs
  exact autoFill_preserves _ _ _ _ ha

/-- C2 witness: the second conjunct of the amended claim applied to a
concrete all-automatic one-based declaration; the third member gets 1 + 2. -/
theorem c2_counter_amended_witness :
    alookup (autoFill ["ONE", "TWO", "THREE"] [] 1) "THREE" =
      some (.val (.int 3)) := by
  have h := c2_counter_amended.2.1 ["ONE", "TWO", "THREE"] [] 1
    (fun a _ => rfl) (by decide) 2 "THREE" (by decide)
  norm_num at h
  exact h

/-- C3: in every declaration, names resolving to an already-claimed value are
aliases: member values are pairwise distinct (one instance per value, so
iteration yields each member once), any two names with the same resolved
value are bound to the identical member index, each constructed member is
named after the first attribute claiming its value, and every attribute name
is bound to the member holding its resolved value. -/
theorem c3_alias_collapsing :
    ∀ (bf : Bool) (hk : HookFn) (d : Decl) (t : EnumType),
      mkEnum bf hk d = .ok t → TameHook hk →
      (t.members.map Member.value).Nodup ∧
      (∀ n1 n2 i1 i2, alookup t.nameIndex n1 = some i1 →
         alookup t.nameIndex n2 = some i2 →
         resolve (finalNs d) n1 = resolve (finalNs d) n2 → i1 = i2) ∧
      (∀ m ∈ t.members,
         (attributesOf d).find?
             (fun a => decide (resolve (finalNs d) a = some m.value)) =
           some m.name) ∧
      (∀ n ∈ attributesOf d, ∃ i m, alookup t.nameIndex n = some i ∧
         t.members[i]? = some m ∧ resolve (finalNs d) n = some m.value) := by
  intro bf hk d t hok htame
  obtain ⟨h1, h2, h3, h4, h5, h6, h7, h8, h9⟩ := mk_good htame hok
  refine ⟨h3, ?_, ?_, ?_⟩
  · intro n1 n2 i1 i2 hn1 hn2 hres
    obtain ⟨m1, hm1, hr1⟩ := h5 n1 i1 hn1
    obtain ⟨m2, hm2, hr2⟩ := h5 n2 i2 hn2
    have hveq : m1.value = m2.value := by
      have := hr1.symm.trans (hres.trans hr2)
      injection this
    have hv1 : (t.members.map Member.value)[i1]? = some m1.value := by
      rw [List.getElem?_map, hm1]
      rfl
    have hv2 : (t.members.map Member.value)[i2]? = some m2.value := by
      rw [List.getElem?_map, hm2]
      rfl
    rw [hveq] at hv1
    exact nodup_getElem?_inj h3 hv1 hv2
  · intro m hm
    have hpair : (m.name, m.value) ∈ firstClaims (finalNs d) (attributesOf d) [] := by
      rw [← h1]
      exact List.mem_map_of_mem _ hm
    exact fc_first _ _ _ _ hpair
  · intro n hn
    have hs := h7 n hn
    cases hi : alookup t.nameIndex n with
    | none => rw [hi] at hs; cases hs
    | some i =>
      obtain ⟨m, hm, hres⟩ := h5 n i hi
      exact ⟨i, m, rfl, hm, hres⟩

/-- C3 witness: the alias-collapsing theorem applied to the StdEnum
declaration of the test-suite (THREE = 3, ALIAS_THREE = 3): member values
are distinct and the member of value 3 carries the first claiming name. -/
theorem c3_alias_collapsing_witness :
    ((getOk (mkEnum false trivialHook stdDecl)).members.map Member.value).Nodup ∧
    (attributesOf stdDecl).find?
        (fun a => decide (resolve (finalNs stdDecl) a = some (.int 3))) =
      some "THREE" := by
  have hok : mkEnum false trivialHook stdDecl =
      .ok (getOk (mkEnum false trivialHook stdDecl)) := rfl
  have h := c3_alias_collapsing false trivialHook stdDecl _ hok trivialHook_tame
  refine ⟨h.1, ?_⟩
  have hm : (⟨2, "THREE", .int 3, [], []⟩ : Member) ∈
      (getOk (mkEnum false trivialHook stdDecl)).members := by decide
  exact h.2.2.1 _ hm

/-- C4 counterexample: on the mixed declaration of examples.py the source
declaration order of the distinct members is AUTO_ZERO, ONE, TWO, but the
code iterates assigned names before annotation-only names and yields ONE,
TWO, AUTO_ZERO. -/
theorem c4_iteration_counterexample :
    memberNames (mkEnum false trivialHook mixedSpecDecl) =
      some ["ONE", "TWO", "AUTO_ZERO"] ∧
    specDeclaredOrder mixedSpecDecl = ["AUTO_ZERO", "ONE", "TWO"] ∧
    ((["ONE", "TWO", "AUTO_ZERO"] : List String) ≠ ["AUTO_ZERO", "ONE", "TWO"]) := by
  decide

/-- C4 (amended): iteration yields the distinct members (aliases excluded)
exactly once each, in attribute-list order — names assigned in the body in
source order, then annotation-only member names in source order — rather
than raw source order; the values produced are exactly the distinct resolved
values (so the length is the count of distinct values).  When the
declaration does not mix assigned and annotation-only members this order
coincides with source order. -/
theorem c4_iteration_amended :
    ∀ (bf : Bool) (hk : HookFn) (d : Decl) (t : EnumType),
      mkEnum bf hk d = .ok t → TameHook hk →
      t.members.map (fun m => (m.name, m.value)) =
        firstClaims (finalNs d) (attributesOf d) [] ∧
      (t.members.map Member.value).Nodup ∧
      (∀ v, v ∈ t.members.map Member.value ↔
         ∃ a ∈ attributesOf d, resolve (finalNs d) a = some v) := by
  intro bf hk d t hok htame
  obtain ⟨h1, h2, h3, _⟩ := mk_good htame hok
  refine ⟨h1, h3, ?_⟩
  intro v
  have hv : t.members.map Member.value =
      (firstClaims (finalNs d) (attributesOf d) []).map Prod.snd := by
    rw [← h1, List.map_map]
    rfl
  rw [hv]
  by_cases hattr : attributesOf d = []
  · rw [hattr]
    simp [firstClaims]
  · have hres : ∀ a ∈ attributesOf d, ∃ w, resolve (finalNs d) a = some w := by
      obtain ⟨_, _, _, _, st, hfold, _⟩ := mk_sealed hok hattr
      exact fold_resolve _ _ _ hfold
    rw [fc_mem _ _ hres v]
    simp

/-- C4 witness: the amended iteration theorem applied to the StdEnum
declaration. -/
theorem c4_iteration_amended_witness :
    ((getOk (mkEnum false trivialHook stdDecl)).members.map Member.value).Nodup ∧
    (getOk (mkEnum false trivialHook stdDecl)).members.map
        (fun m => (m.name, m.value)) =
      firstClaims (finalNs stdDecl) (attributesOf stdDecl) [] := by
  have hok : mkEnum false trivialHook stdDecl =
      .ok (getOk (mkEnum false trivialHook stdDecl)) := rfl
  have h := c4_iteration_amended false trivialHook stdDecl _ hok trivialHook_tame
  exact ⟨h.2.1, h.1⟩

/-- C5: a type that produced at least one member is finalized, and every
attempted attribute assignment or deletion on the type or on any member
instance raises the immutability TypeError; the error paths return no
updated type or member, so fields and both indexes are unchanged by the
attempt. -/
theorem c5_mutation_lock :
    ∀ (bf : Bool) (hk : HookFn) (d : Decl) (t : EnumType),
      mkEnum bf hk d = .ok t → t.members ≠ [] →
      t.finalized = true ∧
      (∀ k v, typeSetattr t k v = .error restrictMsg) ∧
      (∀ k, typeDelattr t k = .error restrictMsg) ∧
      (∀ m k v, memberSetattr t m k v = .error restrictMsg) ∧
      (∀ m k, memberDelattr t m k = .error restrictMsg) := by
  intro bf hk d t hok hne
  have hattr : attributesOf d ≠ [] := by
    intro hc
    rw [mk_empty bf hk d hc] at hok
    injection hok with h1
    rw [← h1] at hne
    exact hne rfl
  obtain ⟨_, _, _, hfin, _⟩ := mk_sealed hok hattr
  exact ⟨hfin,
    fun k v => by unfold typeSetattr; rw [hfin]; rfl,
    fun k => by unfold typeDelattr; rw [hfin]; rfl,
    fun m k v => by unfold memberSetattr; rw [hfin]; rfl,
    fun m k => by unfold memberDelattr; rw [hfin]; rfl⟩

/-- C5 witness: the mutation lock applied to the RestrictEnum declaration of
the test-suite. -/
theorem c5_mutation_lock_witness :
    typeSetattr (getOk (mkEnum false trivialHook restrictDecl)) "ONE"
        (.plain (.val (.int 5))) = .error restrictMsg ∧
    memberDelattr (getOk (mkEnum false trivialHook restrictDecl))
        ⟨0, "ONE", .int 1, [], []⟩ "name" = .error restrictMsg := by
  have hok : mkEnum false trivialHook restrictDecl =
      .ok (getOk (mkEnum false trivialHook restrictDecl)) := rfl
  have h := c5_mutation_lock false trivialHook restrictDecl _ hok (by decide)
  exact ⟨h.2.1 "ONE" (.plain (.val (.int 5))), h.2.2.2.2 _ "name"⟩

/-- C6: a declaration with no member attributes is created open, with the
finalized marker inherited from its bases (false for a fresh base), so
member-adding declarations can still be built on it; a member-adding
declaration over a non-finalized base seals; and a member-adding declaration
over a finalized base dies at the first setattr on the new type with the
restriction TypeError, so no type with added members is produced. -/
theorem c6_extension_gate :
    (∀ (bf : Bool) (hk : HookFn) (d : Decl), attributesOf d = [] →
       mkEnum bf hk d = .ok ⟨d.name, [], [], [], dict0 d, bf || ownFin d, []⟩) ∧
    (∀ (hk : HookFn) (d : Decl) (t : EnumType),
       mkEnum false hk d = .ok t → attributesOf d ≠ [] → t.finalized = true) ∧
    (∀ (hk : HookFn) (d : Decl), attributesOf d ≠ [] →
       mkEnum true hk d = .error restrictMsg) := by
  refine ⟨mk_empty, ?_, ?_⟩
  · intro hk d t hok hattr
    exact (mk_sealed hok hattr).2.2.2.1
  · intro hk d hattr
    exact mk_blocked true hk d hattr rfl

/-- C6 witness: ExtEnumBase produces an open, non-finalized type;
ExtEnumOne (members over the open base) seals; extending a sealed type with
FOUR = 4 raises the restriction TypeError. -/
theorem c6_extension_gate_witness :
    mkEnum false trivialHook extBaseDecl =
      .ok ⟨"ExtEnumBase", [], [], [], dict0 extBaseDecl, false, []⟩ ∧
    (getOk (mkEnum false trivialHook extSubDecl)).finalized = true ∧
    mkEnum true trivialHook extendAttemptDecl = .error restrictMsg := by
  refine ⟨?_, ?_, ?_⟩
  · have h := c6_extension_gate.1 false trivialHook extBaseDecl (by decide)
    simpa using h
  · have hok : mkEnum false trivialHook extSubDecl =
        .ok (getOk (mkEnum false trivialHook extSubDecl)) := rfl
    exact c6_extension_gate.2.1 trivialHook extSubDecl _ hok (by decide)
  · exact c6_extension_gate.2.2 trivialHook extendAttemptDecl (by decide)

/-- C7: when the class body binds the mangled late-init key to a function,
the hook is invoked exactly once per constructed member (the log is the
range of member indices, so alias names trigger no invocation) after all
members exist, and the hook key is removed from the class dict; on the
HookedEnum example with values 0..3 and the halving hook, the extra field of
the members holds references to member indices 0, 0, 1, 1 — the identical
sibling member objects ZERO, ZERO, ONE, ONE. -/
theorem c7_late_init_hook :
    (∀ (bf : Bool) (hk : HookFn) (d : Decl) (t : EnumType),
       mkEnum bf hk d = .ok t → TameHook hk →
       alookup (nsOf d.bindings) (hookKey d) = some (.val .func) →
       attributesOf d ≠ [] →
       t.hookLog = List.range t.members.length ∧
       alookup t.classDict (hookKey d) = none) ∧
    memberValues (mkEnum false hkHalved hookedDecl) =
      some [.int 0, .int 1, .int 2, .int 3] ∧
    memberNames (mkEnum false hkHalved hookedDecl) =
      some ["ZERO", "ONE", "TWO", "THREE"] ∧
    memberExtras (mkEnum false hkHalved hookedDecl) "halved_value" =
      some [some (.ref 0), some (.ref 0), some (.ref 1), some (.ref 1)] ∧
    hookLogOf (mkEnum false hkHalved hookedDecl) = some [0, 1, 2, 3] ∧
    alookup (getOk (mkEnum false hkHalved hookedDecl)).classDict
        (hookKey hookedDecl) = none := by
  refine ⟨?_, by decide, by decide, by decide, by decide, by decide⟩
  intro bf hk d t hok htame hhk hattr
  obtain ⟨_, _, _, _, st, hfold, _, _, hcase⟩ := mk_sealed hok hattr
  rcases hcase with ⟨_, _, _, hnone⟩ | ⟨htm, hcd, hlog, _⟩
  · rw [hnone] at hhk
    cases hhk
  · constructor
    · rw [hlog]
      have hproj := runHook_proj htame st.valueIndex st.members
      have hlen : t.members.length = st.members.length := by
        rw [htm]
        have := congrArg List.length hproj
        simpa using this
      rw [hlen]
    · rw [hcd, alookup_aremove, if_pos rfl]

/-- C7 witness: the general hook conjunct applied to the HookedEnum
declaration. -/
theorem c7_late_init_hook_witness :
    (getOk (mkEnum false hkHalved hookedDecl)).hookLog =
      List.range (getOk (mkEnum false hkHalved hookedDecl)).members.length := by
  have hok : mkEnum false hkHalved hookedDecl =
      .ok (getOk (mkEnum false hkHalved hookedDecl)) := rfl
  exact (c7_late_init_hook.1 false hkHalved hookedDecl _ hok hkHalved_tame
    (by decide) (by decide)).1

/-- C8: on every type the builder returns, retrieval-by-value of the value of
a member returns exactly that member index (and the member sits at its
index), retrieval of an unregistered value raises the ValueError naming the
value, indexing with a name bound in the name index returns the identical
member entry of the class dict, and indexing with a name absent from the
class dict raises the AttributeError naming the type and the name. -/
theorem c8_lookup_roundtrip :
    ∀ (bf : Bool) (hk : HookFn) (d : Decl) (t : EnumType),
      mkEnum bf hk d = .ok t → TameHook hk →
      (∀ m ∈ t.members, get t m.value = .ok m.id ∧ t.members[m.id]? = some m) ∧
      (∀ v, v ∉ t.members.map Member.value →
         get t v = .error ("Value " ++ pvStr v ++
           " is not found in this enum type declaration")) ∧
      (∀ n i, alookup t.nameIndex n = some i → getItem t n = .ok (.member i)) ∧
      (∀ n, alookup t.classDict n = none →
         getItem t n = .error ("type object " ++ sq ++ t.typeName ++ sq ++
           " has no attribute " ++ sq ++ n ++ sq)) := by
  intro bf hk d t hok htame
  obtain ⟨h1, h2, h3, h4, h5, h6, h7, h8, h9⟩ := mk_good htame hok
  refine ⟨?_, ?_, ?_, ?_⟩
  · intro m hm
    have hlk : alookup t.valueIndex m.value = some m.id := by
      rw [h4]
      exact alookup_value_of_mem h3 hm
    exact ⟨by unfold get; rw [hlk], ids_getElem h2 hm⟩
  · intro v hv
    have hkeys : t.valueIndex.map Prod.fst = t.members.map Member.value := by
      rw [h4, List.map_map]
      rfl
    have hlk : alookup t.valueIndex v = none := by
      rw [alookup_eq_none, hkeys]
      exact hv
    unfold get
    rw [hlk]
  · intro n i hn
    unfold getItem
    rw [h6 n i hn]
  · intro n hn
    unfold getItem
    rw [hn]

/-- C8 witness: lookups on the StdEnum declaration: retrieving the value of
member ONE returns member index 0, value 7 raises the ValueError naming 7,
alias name ALIAS_THREE indexes to member 2, and the unknown name FOUR raises
the AttributeError naming it. -/
theorem c8_lookup_roundtrip_witness :
    get (getOk (mkEnum false trivialHook stdDecl)) (.int 1) = .ok 0 ∧
    get (getOk (mkEnum false trivialHook stdDecl)) (.int 7) =
      .error ("Value " ++ pvStr (.int 7) ++
        " is not found in this enum type declaration") ∧
    getItem (getOk (mkEnum false trivialHook stdDecl)) "ALIAS_THREE" =
      .ok (.member 2) ∧
    getItem (getOk (mkEnum false trivialHook stdDecl)) "FOUR" =
      .error ("type object " ++ sq ++
        (getOk (mkEnum false trivialHook stdDecl)).typeName ++ sq ++
        " has no attribute " ++ sq ++ "FOUR" ++ sq) := by
  have hok : mkEnum false trivialHook stdDecl =
      .ok (getOk (mkEnum false trivialHook stdDecl)) := rfl
  have h := c8_lookup_roundtrip false trivialHook stdDecl _ hok trivialHook_tame
  refine ⟨?_, ?_, ?_, ?_⟩
  · have hm : (⟨0, "ONE", .int 1, [], []⟩ : Member) ∈
        (getOk (mkEnum false trivialHook stdDecl)).members := by decide
    exact (h.1 _ hm).1
  · exact h.2.1 (.int 7) (by decide)
  · exact h.2.2.1 "ALIAS_THREE" 2 (by decide)
  · exact h.2.2.2 "FOUR" (by decide)

/-- C9: every member of a built type serializes to the pair (type, value)
handed to the retrieval-by-value reconstructor, deserializing that pair
returns exactly the member index it came from (the identical singleton, as
the member sits at its index), and shallow and deep copies return the member
itself. -/
theorem c9_serialization_identity :
    ∀ (bf : Bool) (hk : HookFn) (d : Decl) (t : EnumType),
      mkEnum bf hk d = .ok t → TameHook hk →
      ∀ m ∈ t.members,
        reduceMember t m = (t.typeName, m.value) ∧
        deserialize t m.value = .ok m.id ∧
        t.members[m.id]? = some m ∧
        copyMember m = m ∧ deepcopyMember m = m := by
  intro bf hk d t hok htame m hm
  obtain ⟨h1, h2, h3, h4, _⟩ := mk_good htame hok
  have hlk : alookup t.valueIndex m.value = some m.id := by
    rw [h4]
    exact alookup_value_of_mem h3 hm
  exact ⟨rfl, by unfold deserialize get; rw [hlk], ids_getElem h2 hm, rfl, rfl⟩

/-- C9 witness: the serialization round trip applied to member TWO of the
StdEnum declaration. -/
theorem c9_serialization_identity_witness :
    reduceMember (getOk (mkEnum false trivialHook stdDecl))
        ⟨1, "TWO", .int 2, [], []⟩ = ("StdEnum", .int 2) ∧
    deserialize (getOk (mkEnum false trivialHook stdDecl)) (.int 2) = .ok 1 := by
  have hok : mkEnum false trivialHook stdDecl =
      .ok (getOk (mkEnum false trivialHook stdDecl)) := rfl
  have hm : (⟨1, "TWO", .int 2, [], []⟩ : Member) ∈
      (getOk (mkEnum false trivialHook stdDecl)).members := by decide
  have h := c9_serialization_identity false trivialHook stdDecl _ hok
    trivialHook_tame _ hm
  exact ⟨h.1, h.2.1⟩

/-! ### Key-set lemmas for the membership characterisation -/

theorem keys_nodup_aset {α β : Type} [DecidableEq α] (l : List (α × β)) (k : α) (v : β)
    (h : (l.map Prod.fst).Nodup) : ((aset l k v).map Prod.fst).Nodup := by
  by_cases hk : (alookup l k).isSome = true
  · rw [aset, if_pos hk]
    have heq : (l.map (fun p => if p.1 = k then (k, v) else p)).map Prod.fst =
        l.map Prod.fst := by
      rw [List.map_map]
      apply List.map_congr_left
      intro p _
      by_cases hp : p.1 = k
      · simp [Function.comp, hp]
      · simp [Function.comp, hp]
    rw [heq]
    exact h
  · rw [aset, if_neg hk, List.map_append, List.nodup_append]
    refine ⟨h, List.nodup_singleton _, ?_⟩
    intro x hx hx2
    simp at hx2
    have hnone : alookup l k = none := by
      cases he : alookup l k with
      | none => rfl
      | some w => rw [he] at hk; simp at hk
    rw [hx2] at hx
    exact (alookup_eq_none.mp hnone) hx

theorem nsOf_keys_nodup (bs : List Binding) : ((nsOf bs).map Prod.fst).Nodup := by
  suffices h : ∀ (acc : List (String × NsVal)), (acc.map Prod.fst).Nodup →
      ((bs.foldl (fun acc b =>
          match b with
          | .assigned n v => aset acc n v
          | .assignedAnn n _ v => aset acc n v
          | .annotated _ _ => acc) acc).map Prod.fst).Nodup by
    exact h [] (by simp)
  induction bs with
  | nil => intro acc h; exact h
  | cons b rest ih =>
    intro acc h
    rw [List.foldl_cons]
    cases b with
    | assigned n v => exact ih _ (keys_nodup_aset _ _ _ h)
    | assignedAnn n a v => exact ih _ (keys_nodup_aset _ _ _ h)
    | annotated n a => exact ih _ h

theorem annsOf_keys_nodup (bs : List Binding) : ((annsOf bs).map Prod.fst).Nodup := by
  suffices h : ∀ (acc : List (String × String)), (acc.map Prod.fst).Nodup →
      ((bs.foldl (fun acc b =>
          match b with
          | .annotated n a => aset acc n a
          | .assignedAnn n a _ => aset acc n a
          | .assigned _ _ => acc) acc).map Prod.fst).Nodup by
    exact h [] (by simp)
  induction bs with
  | nil => intro acc h; exact h
  | cons b rest ih =>
    intro acc h
    rw [List.foldl_cons]
    cases b with
    | assigned n v => exact ih _ h
    | assignedAnn n a v => exact ih _ (keys_nodup_aset _ _ _ h)
    | annotated n a => exact ih _ (keys_nodup_aset _ _ _ h)

theorem mem_alookup {α β : Type} [DecidableEq α] :
    ∀ {l : List (α × β)}, (l.map Prod.fst).Nodup →
      ∀ {k : α} {v : β}, (k, v) ∈ l → alookup l k = some v := by
  intro l
  induction l with
  | nil =>
    intro _ k v hm
    cases hm
  | cons p ps ih =>
    intro hnd k v hm
    rw [List.map_cons] at hnd
    obtain ⟨hp, hnd2⟩ := List.nodup_cons.mp hnd
    rcases List.mem_cons.mp hm with h1 | h1
    · rw [← h1]
      simp [alookup]
    · have hpk : ¬ p.1 = k := by
        intro hc
        apply hp
        rw [hc]
        exact List.mem_map_of_mem Prod.fst h1
      simp only [alookup, hpk, if_false]
      exact ih hnd2 h1

/-- Characterisation of membership in the attribute list. -/
theorem mem_attributesOf (d : Decl) (n : String) :
    n ∈ attributesOf d ↔
      (isPublicUpper n = true ∧
       ((alookup (nsOf d.bindings) n).isSome = true ∨
        alookup (annsOf d.bindings) n = some d.name)) := by
  unfold attributesOf
  rw [List.mem_append]
  constructor
  · rintro (h | h)
    · obtain ⟨p, hp, hf⟩ := List.mem_filterMap.mp h
      by_cases hc : isPublicUpper p.1 = true
      · rw [if_pos hc] at hf
        injection hf with hf1
        subst hf1
        refine ⟨hc, Or.inl ?_⟩
        rw [alookup_isSome]
        exact List.mem_map_of_mem Prod.fst hp
      · rw [if_neg hc] at hf
        cases hf
    · obtain ⟨p, hp, hf⟩ := List.mem_filterMap.mp h
      by_cases hc : (isPublicUpper p.1 && p.2 == d.name) = true
      · rw [if_pos hc] at hf
        injection hf with hf1
        subst hf1
        obtain ⟨hc1, hc2⟩ := Bool.and_eq_true _ _ |>.mp hc
        refine ⟨hc1, Or.inr ?_⟩
        have hpd : p.2 = d.name := by simpa using hc2
        have hmem : (p.1, d.name) ∈ annsOf d.bindings := by
          rw [← hpd]
          exact hp
        exact mem_alookup (annsOf_keys_nodup d.bindings) hmem
      · rw [if_neg hc] at hf
        cases hf
  · rintro ⟨hpub, h | h⟩
    · left
      rw [alookup_isSome] at h
      obtain ⟨p, hp, hf⟩ := List.mem_map.mp h
      apply List.mem_filterMap.mpr
      refine ⟨p, hp, ?_⟩
      rw [hf]
      rw [if_pos hpub]
    · right
      apply List.mem_filterMap.mpr
      refine ⟨(n, d.name), alookup_mem h, ?_⟩
      rw [if_pos]
      simp [hpub]

/-- C10: a binding becomes a member attribute exactly when its name does not
start with an underscore, is entirely uppercase, and is either assigned a
value in the body or annotated with the own class name; every other binding
never enters the name index and survives in the class dict as the plain
value it was assigned. -/
theorem c10_member_eligibility :
    (∀ (d : Decl) (n : String),
       n ∈ attributesOf d ↔
         (startsUnderscore n = false ∧ pyIsUpper n = true ∧
          ((alookup (nsOf d.bindings) n).isSome = true ∨
           alookup (annsOf d.bindings) n = some d.name))) ∧
    (∀ (bf : Bool) (hk : HookFn) (d : Decl) (t : EnumType),
       mkEnum bf hk d = .ok t → TameHook hk →
       ∀ n, n ∉ attributesOf d → n ≠ hookKey d →
         alookup t.nameIndex n = none ∧
         alookup t.classDict n =
           (alookup (nsOf d.bindings) n).map ClassAttr.plain) := by
  constructor
  · intro d n
    rw [mem_attributesOf]
    unfold isPublicUpper
    constructor
    · rintro ⟨hpub, hr⟩
      obtain ⟨h1, h2⟩ := Bool.and_eq_true _ _ |>.mp hpub
      exact ⟨by simpa using h1, h2, hr⟩
    · rintro ⟨h1, h2, hr⟩
      exact ⟨by simp [h1, h2], hr⟩
  · intro bf hk d t hok htame n hna hnhk
    have hnone := mk_not_attr hok n hna
    refine ⟨hnone, ?_⟩
    obtain ⟨_, _, _, _, _, _, _, h8, _⟩ := mk_good htame hok
    have hfn : alookup (finalNs d) n = alookup (nsOf d.bindings) n := by
      unfold finalNs
      exact autoFill_not_mem _ _ _ _ hna
    rw [h8 n hnone hnhk, hfn]

/-- C10 witness: on the mixed declaration, TWO is a member attribute while
the lowercase zero-valued switch is not, and the switch survives as a plain
class-dict value. -/
theorem c10_member_eligibility_witness :
    "TWO" ∈ attributesOf mixedSpecDecl ∧
    "_ZERO_VALUED" ∉ attributesOf mixedSpecDecl ∧
    alookup (getOk (mkEnum false trivialHook mixedSpecDecl)).classDict
        "_ZERO_VALUED" =
      (alookup (nsOf mixedSpecDecl.bindings) "_ZERO_VALUED").map ClassAttr.plain := by
  refine ⟨?_, ?_, ?_⟩
  · exact (c10_member_eligibility.1 mixedSpecDecl "TWO").mpr
      (by refine ⟨by decide, by decide, Or.inl (by decide)⟩)
  · intro hc
    have h := (c10_member_eligibility.1 mixedSpecDecl "_ZERO_VALUED").mp hc
    exact absurd h.1 (by decide)
  · have hok : mkEnum false trivialHook mixedSpecDecl =
        .ok (getOk (mkEnum false trivialHook mixedSpecDecl)) := rfl
    exact (c10_member_eligibility.2 false trivialHook mixedSpecDecl _ hok
      trivialHook_tame "_ZERO_VALUED" (by decide) (by decide)).2

end FastEnumModel
